import Mathlib

/-!
Verification of the sudoku solver in src/src/sudoku.h (namespace rda::sudoku).

The board is modelled as a list of integer cells (the source uses
std::vector of int8_t; every value handled by the claims fits in int8_t,
so plain integers are a faithful model).  Board reads inside the solver
scan are guarded: std::vector indexing out of range is undefined
behaviour in the source, and the solver model returns the error value
none when such a read happens.  The two chess helpers additionally guard
the single-iterator erase call of the source, which is undefined
behaviour when std::remove returns the end iterator.
-/

namespace rda.sudoku

/-- Model of cell_t (int8_t in the source; all reachable values fit). -/
abbrev cell_t := Int

/-- Model of board_t = std::vector of cell_t. -/
abbrev board_t := List Int

/-- Model of struct point_t: a (col, row) point in a 9x9 sudoku board. -/
structure point_t where
  column : Int
  row : Int
deriving DecidableEq, Repr

/-- Source: static size_t point_t::idx(cell_t c, cell_t r) = 9 * r + c. -/
def point_t.idx (c r : Int) : Int :=
  9 * r + c

/-- Source: member point_t::idx(), which delegates to the static idx(column, row). -/
def point_t.pidx (p : point_t) : Int :=
  point_t.idx p.column p.row

/-- Source: operator+ builds point_t(rhs.column + column, rhs.row + row). -/
instance : Add point_t :=
  ⟨fun p rhs => ⟨rhs.column + p.column, rhs.row + p.row⟩⟩

/-- Source: point_t::valid() checks column >= 0 && column <= 9 && row >= 0 && row <= 9.
Note the inclusive upper bound 9 (one past the last playable coordinate 8). -/
def point_t.valid (p : point_t) : Bool :=
  decide (0 ≤ p.column) && decide (p.column ≤ 9) && decide (0 ≤ p.row) && decide (p.row ≤ 9)

/-- Source: static point_t::r_idx(cell_t index) = (index % 9, index / 9).
C integer division and remainder truncate toward zero, which is Int.tdiv and Int.tmod. -/
def point_t.r_idx (index : Int) : point_t :=
  ⟨index.tmod 9, index.tdiv 9⟩

/-- Source: static point_t::get_box_start(p) = ((p.column / 3) * 3, (p.row / 3) * 3). -/
def point_t.get_box_start (p : point_t) : point_t :=
  ⟨p.column.tdiv 3 * 3, p.row.tdiv 3 * 3⟩

/-- Total model of the unchecked board read board[k] used by the candidate
filters.  Out-of-range C++ indexing is undefined behaviour; every theorem
below evaluates this only at in-range indices of length-81 boards, where it
is the exact element. -/
def cellAt (board : board_t) (k : Int) : Int :=
  if 0 ≤ k ∧ k < (board.length : Int) then board.getD k.toNat 0 else 0

/-- Guarded model of the board read board[k]: none models the undefined
behaviour of an out-of-range std::vector access. -/
def cellAt? (board : board_t) (k : Int) : Option Int :=
  if 0 ≤ k ∧ k < (board.length : Int) then some (board.getD k.toNat 0) else none

/-- The initial candidate vector {1, ..., 9} of find_candidates. -/
def digits : List Int :=
  [1, 2, 3, 4, 5, 6, 7, 8, 9]

/-- Source: candidates.erase(std::remove(begin, end, v), end) removes every
occurrence of v, preserving the order of the rest. -/
def erase_remove_all (candidates : List Int) (v : Int) : List Int :=
  candidates.filter (fun x => x ≠ v)

/-- Source: remove_candidates_sudoku_column iterates row = 0..8 and removes
board[idx(column, row)] from the candidates. -/
def remove_candidates_sudoku_column (candidates : List Int) (board : board_t) (column : Int) : List Int :=
  (List.range 9).foldl
    (fun cand (row : Nat) => erase_remove_all cand (cellAt board (point_t.idx column (row : Int)))) candidates

/-- Source: remove_candidates_sudoku_row iterates col = 0..8 and removes
board[idx(col, row)] from the candidates. -/
def remove_candidates_sudoku_row (candidates : List Int) (board : board_t) (row : Int) : List Int :=
  (List.range 9).foldl
    (fun cand (col : Nat) => erase_remove_all cand (cellAt board (point_t.idx (col : Int) row))) candidates

/-- Source: remove_candidates_sudoku_3x3_box iterates the 3x3 box whose
top-left corner is get_box_start(p), outer loop on columns, inner on rows,
and removes each read value from the candidates. -/
def remove_candidates_sudoku_3x3_box (candidates : List Int) (board : board_t) (p : point_t) : List Int :=
  (List.range 3).foldl
    (fun cand (dc : Nat) =>
      (List.range 3).foldl
        (fun cand2 (dr : Nat) =>
          erase_remove_all cand2
            (cellAt board
              (point_t.idx ((point_t.get_box_start p).column + (dc : Int))
                ((point_t.get_box_start p).row + (dr : Int)))))
        cand)
    candidates

/-- Source: the single-iterator call candidates.erase(std::remove(begin, end, v))
in the chess helpers.  std::remove shifts the kept elements to the front and
returns the new logical end; erase with that one iterator removes exactly the
element at that position.  When v does not occur in the vector, std::remove
returns the end iterator and erasing it is undefined behaviour, modelled as
none.  (When v occurs k > 1 times the tail left behind by std::remove holds
unspecified values; the model keeps the original elements there, the common
implementation, and no theorem below depends on that case.) -/
def erase_remove_single (candidates : List Int) (v : Int) : Option (List Int) :=
  if v ∈ candidates then
    some ((candidates.filter (fun x => x ≠ v)) ++
      candidates.drop ((candidates.filter (fun x => x ≠ v)).length + 1))
  else none

/-- Source: the king_move_deltas table of remove_candidates_chess_king. -/
def king_move_deltas : List point_t :=
  [⟨-1, -1⟩, ⟨-1, 0⟩, ⟨-1, 1⟩, ⟨0, -1⟩, ⟨0, 1⟩, ⟨1, -1⟩, ⟨1, 0⟩, ⟨1, 1⟩]

/-- Source: the knight_move_deltas table of remove_candidates_chess_knight. -/
def knight_move_deltas : List point_t :=
  [⟨-2, -1⟩, ⟨-2, 1⟩, ⟨2, -1⟩, ⟨2, 1⟩, ⟨-1, -2⟩, ⟨-1, 2⟩, ⟨1, -2⟩, ⟨1, 2⟩]

/-- One delta step shared by the two chess helpers: if p + delta passes
valid(), read board[(p + delta).idx()] (guarded: the read can be out of
range, since valid() accepts coordinate 9) and erase the value with the
single-iterator erase (guarded: undefined when the value is absent). -/
def chess_delta_step (board : board_t) (p : point_t) (cand : List Int) (delta : point_t) : Option (List Int) :=
  if (p + delta).valid then
    (cellAt? board (p + delta).pidx).bind (fun v => erase_remove_single cand v)
  else some cand

/-- Source: remove_candidates_chess_king. -/
def remove_candidates_chess_king (candidates : List Int) (board : board_t) (p : point_t) : Option (List Int) :=
  king_move_deltas.foldlM (chess_delta_step board p) candidates

/-- Source: remove_candidates_chess_knight. -/
def remove_candidates_chess_knight (candidates : List Int) (board : board_t) (p : point_t) : Option (List Int) :=
  knight_move_deltas.foldlM (chess_delta_step board p) candidates

/-- Source: find_candidates starts from {1..9} and applies the column, row
and 3x3-box removals in that order.  (The chess helpers are not called.) -/
def find_candidates (board : board_t) (p : point_t) : List Int :=
  remove_candidates_sudoku_3x3_box
    (remove_candidates_sudoku_row
      (remove_candidates_sudoku_column digits board p.column) board p.row)
    board p

/-- Modelled from the spec: the extended (chess-constrained) candidate query,
which applies the chess king and knight exclusions in addition to the
standard rule set.  The repository contains the two chess removers but no
caller that composes them with find_candidates; the spec (sections 4.2 and
8) describes the extended rule set as the standard rule set plus the king
and knight exclusions. -/
def find_candidates_extended (board : board_t) (p : point_t) : Option (List Int) :=
  match remove_candidates_chess_king (find_candidates board p) board p with
  | none => none
  | some c => remove_candidates_chess_knight c board p

/-- Source: is_completed returns false unless the size is exactly 81, then
checks that no cell is 0. -/
def is_completed (board : board_t) : Bool :=
  decide (board.length = 81) && board.all (fun cell => cell ≠ 0)

/-- The scan loop of solve_recursive, with the loop condition i < 81 carried
as the counter remaining = 81 - i: walk i upward while i < 81, skip non-zero
cells, and stop at the first empty cell.  Returns none when a read is out of
range (undefined behaviour in the source), some none when the loop runs past
index 80 without finding an empty cell, and some (some i) for the first
empty cell i. -/
def find_first_empty_from (board : board_t) : Nat → Nat → Option (Option Nat)
  | 0, _ => some none
  | remaining + 1, i =>
    match board[i]? with
    | none => none
    | some v => if v = 0 then some (some i) else find_first_empty_from board remaining (i + 1)

/-- The scan loop of solve_recursive starting at index start. -/
def find_first_empty (board : board_t) (start : Nat) : Option (Option Nat) :=
  find_first_empty_from board (81 - start) start

/-- The candidate loop of solve_recursive, as a fold over the candidate
list: for each candidate value pos, g pos is the recursive solve of the
board copy with pos placed at the branch cell.  The accumulator some none
means still searching, some (some done) means a completed attempt was
returned (the source returns it immediately, so later candidates are ignored
unevaluated), and none models undefined behaviour inside a recursive call. -/
def try_step (g : Int → Option board_t) (acc : Option (Option board_t)) (pos : Int) :
    Option (Option board_t) :=
  match acc with
  | some none =>
    match g pos with
    | none => none
    | some attempt => if is_completed attempt then some (some attempt) else some none
  | other => other

/-- The candidate loop as a fold of try_step over the candidate list,
starting in the still-searching state. -/
def try_fold (g : Int → Option board_t) (cands : List Int) : Option (Option board_t) :=
  cands.foldl (try_step g) (some none)

/-- The return dispatch of the candidate loop: undefined behaviour
propagates, a found completed attempt is returned, and a still-searching
end of the loop means no candidate was viable, so the source returns the
empty board. -/
def branch_result : Option (Option board_t) → Option board_t
  | none => none
  | some (some done) => some done
  | some none => some []

/-- The body of the solve_recursive scan: an out-of-range read propagates,
running past index 80 returns the empty board, and the first empty cell i
runs the candidate loop, where g i pos is the recursive solve of the board
copy with pos placed at cell i. -/
def scan_dispatch (board : board_t) (g : Nat → Int → Option board_t) :
    Option (Option Nat) → Option board_t
  | none => none
  | some none => some []
  | some (some i) =>
    branch_result (try_fold (g i) (find_candidates board (point_t.r_idx (i : Int))))

/-- Source: solve_recursive, with an explicit recursion-depth budget.  A
budget of 82 is never exhausted from start index 0 (each recursive call
strictly increases the start index, which never exceeds 81), so
solve_rec_fuel 82 is the exact function; the budget also lets the depth
bound of the spec be stated.  none models undefined behaviour (an
out-of-range read) or an exhausted budget; some r is the returned board. -/
def solve_rec_fuel : Nat → board_t → Nat → Option board_t
  | 0, _, _ => none
  | fuel + 1, board, start =>
    if is_completed board then some board
    else
      scan_dispatch board (fun i pos => solve_rec_fuel fuel (board.set i pos) (i + 1))
        (find_first_empty board start)

/-- Source: solve_recursive with its default start_index = 0 is the public
solve entry point; fuel 82 is never exhausted (see solve_rec_fuel). -/
def solve_recursive (board : board_t) (start : Nat) : Option board_t :=
  solve_rec_fuel 82 board start

/-! Concrete boards used as witnesses and counterexamples. -/

/-- The all-empty board. -/
def zero_board : board_t :=
  List.replicate 81 0

/-- A complete board every cell of which holds 5: is_completed accepts it,
yet every row repeats the digit 5. -/
def all_fives : board_t :=
  List.replicate 81 5

/-- A complete classically-valid grid (the shifted-rows pattern). -/
def full_grid : board_t :=
  [1, 2, 3, 4, 5, 6, 7, 8, 9,
   4, 5, 6, 7, 8, 9, 1, 2, 3,
   7, 8, 9, 1, 2, 3, 4, 5, 6,
   2, 3, 4, 5, 6, 7, 8, 9, 1,
   5, 6, 7, 8, 9, 1, 2, 3, 4,
   8, 9, 1, 2, 3, 4, 5, 6, 7,
   3, 4, 5, 6, 7, 8, 9, 1, 2,
   6, 7, 8, 9, 1, 2, 3, 4, 5,
   9, 1, 2, 3, 4, 5, 6, 7, 8]

/-- full_grid with the centre cell (index 40) blanked: a solvable puzzle
with exactly one empty cell. -/
def one_blank_board : board_t :=
  full_grid.set 40 0

/-- An unsatisfiable puzzle with consistent givens: row 0 holds 1..8 with
cell (8, 0) empty, and the 9 at (8, 1) blocks the only remaining digit for
that cell, so the first empty cell has no candidates. -/
def unsat_board : board_t :=
  ([1, 2, 3, 4, 5, 6, 7, 8, 0] ++ List.replicate 8 0 ++ [9] ++ List.replicate 63 0 : List Int)

/-- A length-81 board holding 1 at index 70 = (7, 7) and 2 at index 79 =
(7, 8): the first two king deltas from (8, 8) erase successfully, and the
third reaches (7, 9), which passes valid() and indexes cell 88, out of
range. -/
def king_oob_board : board_t :=
  (zero_board.set 70 1).set 79 2

/-! Characterisation of the candidate filters. -/

/-- A left fold of erase_remove_all steps keeps exactly the initial
candidates different from every removed value. -/
theorem mem_foldl_erase {α : Type} (v : α → Int) (l : List α) (c0 : List Int) (x : Int) :
    x ∈ l.foldl (fun cand j => erase_remove_all cand (v j)) c0 ↔
      x ∈ c0 ∧ ∀ j ∈ l, x ≠ v j := by
  induction l generalizing c0 with
  | nil => simp
  | cons a l ih =>
    rw [List.foldl_cons, ih]
    simp only [erase_remove_all, List.mem_filter, decide_eq_true_eq, List.mem_cons]
    constructor
    · rintro ⟨⟨h1, h2⟩, h3⟩
      refine ⟨h1, ?_⟩
      rintro j (rfl | hj)
      · exact h2
      · exact h3 j hj
    · rintro ⟨h1, h2⟩
      exact ⟨⟨h1, h2 a (Or.inl rfl)⟩, fun j hj => h2 j (Or.inr hj)⟩

/-- The nested fold of the 3x3-box removal keeps exactly the initial
candidates different from every removed value. -/
theorem mem_foldl_erase_nested {α β : Type} (v : α → β → Int) (l : List α) (m : List β)
    (c0 : List Int) (x : Int) :
    x ∈ l.foldl (fun cand a => m.foldl (fun cand2 b => erase_remove_all cand2 (v a b)) cand) c0 ↔
      x ∈ c0 ∧ ∀ a ∈ l, ∀ b ∈ m, x ≠ v a b := by
  induction l generalizing c0 with
  | nil => simp
  | cons a l ih =>
    rw [List.foldl_cons, ih, mem_foldl_erase]
    simp only [List.mem_cons]
    constructor
    · rintro ⟨⟨h1, h2⟩, h3⟩
      refine ⟨h1, ?_⟩
      rintro j (rfl | hj)
      · exact h2
      · exact h3 j hj
    · rintro ⟨h1, h2⟩
      exact ⟨⟨h1, h2 a (Or.inl rfl)⟩, fun j hj => h2 j (Or.inr hj)⟩

/-- Membership in find_candidates: a value survives exactly when it is one
of the nine digits and differs from every value read along the column of p,
the row of p, and the 3x3 box of p. -/
theorem mem_find_candidates (board : board_t) (p : point_t) (x : Int) :
    x ∈ find_candidates board p ↔
      x ∈ digits ∧
      (∀ rN ∈ List.range 9, x ≠ cellAt board (point_t.idx p.column (rN : Int))) ∧
      (∀ cN ∈ List.range 9, x ≠ cellAt board (point_t.idx (cN : Int) p.row)) ∧
      (∀ dc ∈ List.range 3, ∀ dr ∈ List.range 3,
        x ≠ cellAt board
          (point_t.idx ((point_t.get_box_start p).column + (dc : Int))
            ((point_t.get_box_start p).row + (dr : Int)))) := by
  unfold find_candidates remove_candidates_sudoku_3x3_box remove_candidates_sudoku_row
    remove_candidates_sudoku_column
  rw [mem_foldl_erase_nested, mem_foldl_erase, mem_foldl_erase]
  exact ⟨fun h => ⟨h.1.1.1, h.1.1.2, h.1.2, h.2⟩,
    fun h => ⟨⟨⟨h.1, h.2.1⟩, h.2.2.1⟩, h.2.2.2⟩⟩

/-! Cast bridges for the C truncating division and remainder. -/

/-- Int.tmod on natural-number casts is the natural remainder. -/
theorem natCast_tmod (m n : Nat) : (m : Int).tmod (n : Int) = ((m % n : Nat) : Int) :=
  rfl

/-- Int.tdiv on natural-number casts is the natural quotient. -/
theorem natCast_tdiv (m n : Nat) : (m : Int).tdiv (n : Int) = ((m / n : Nat) : Int) :=
  rfl

/-- Int.tmod by the literal 9 on a natural-number cast. -/
theorem tmod_nine (m : Nat) : (m : Int).tmod 9 = ((m % 9 : Nat) : Int) :=
  rfl

/-- Int.tdiv by the literal 9 on a natural-number cast. -/
theorem tdiv_nine (m : Nat) : (m : Int).tdiv 9 = ((m / 9 : Nat) : Int) :=
  rfl

/-- The guarded read agrees with the total read at an in-range index. -/
theorem cellAt_eq_some (board : board_t) (k : Int) (h : 0 ≤ k ∧ k < (board.length : Int)) :
    cellAt? board k = some (cellAt board k) := by
  unfold cellAt cellAt?
  rw [if_pos h, if_pos h]

/-- The guarded read errors at an out-of-range index. -/
theorem cellAt_eq_none (board : board_t) (k : Int) (h : ¬(0 ≤ k ∧ k < (board.length : Int))) :
    cellAt? board k = none :=
  if_neg h

/-! Behaviour of the chess delta step. -/

/-- A successful chess delta step only removes candidates. -/
theorem chess_step_subset (board : board_t) (p : point_t) (cand : List Int) (delta : point_t)
    (cand2 : List Int) (h : chess_delta_step board p cand delta = some cand2) :
    ∀ x ∈ cand2, x ∈ cand := by
  unfold chess_delta_step at h
  by_cases hv : (p + delta).valid = true
  · rw [if_pos hv] at h
    cases hM : cellAt? board (p + delta).pidx with
    | none => rw [hM, Option.none_bind] at h; exact absurd h (by simp)
    | some v =>
      rw [hM, Option.some_bind] at h
      unfold erase_remove_single at h
      by_cases hmem : v ∈ cand
      · rw [if_pos hmem] at h
        obtain rfl := Option.some.inj h
        intro x hx
        rcases List.mem_append.1 hx with hx1 | hx2
        · exact (List.mem_filter.1 hx1).1
        · exact List.mem_of_mem_drop hx2
      · rw [if_neg hmem] at h
        exact absurd h (by simp)
  · rw [if_neg hv] at h
    obtain rfl := Option.some.inj h
    exact fun x hx => hx

/-- If some delta in the list makes the step fail on every candidate list
drawn from S, the whole chess fold fails. -/
theorem foldlM_chess_none (board : board_t) (p : point_t) (S : List Int) (bad : point_t)
    (hbadstep : ∀ cand, (∀ x ∈ cand, x ∈ S) → chess_delta_step board p cand bad = none)
    (l : List point_t) (hbad : bad ∈ l) :
    ∀ cand, (∀ x ∈ cand, x ∈ S) → l.foldlM (chess_delta_step board p) cand = none := by
  induction l with
  | nil => exact absurd hbad (List.not_mem_nil bad)
  | cons a l ih =>
    intro cand hsub
    rw [List.foldlM_cons]
    rcases List.mem_cons.1 hbad with rfl | hbad2
    · rw [hbadstep cand hsub]
      rfl
    · cases hstep : chess_delta_step board p cand a with
      | none => rfl
      | some cand2 =>
        have hsub2 : ∀ x ∈ cand2, x ∈ S :=
          fun x hx => hsub x (chess_step_subset board p cand a cand2 hstep x hx)
        exact ih hbad2 cand2 hsub2

/-- From any on-board point the downward king delta (0, 1) always makes the
single-iterator erase fail or reads out of range: on the bottom row the
target (column, 9) passes valid() and indexes cell 81 + column, out of
range; on every other row the neighbour below is in the same column, so
its value is either 0 or already removed by the column pass, and in both
cases it is absent from the candidate list, so std::remove returns the end
iterator and erasing it is undefined. -/
theorem chess_step_down_none (board : board_t) (p : point_t) (hlen : board.length = 81)
    (hc0 : 0 ≤ p.column) (hc8 : p.column ≤ 8) (hr0 : 0 ≤ p.row) (hr8 : p.row ≤ 8)
    (cand : List Int) (hsub : ∀ x ∈ cand, x ∈ find_candidates board p) :
    chess_delta_step board p cand ⟨0, 1⟩ = none := by
  have hlen81 : (board.length : Int) = 81 := by simp [hlen]
  have hpos : p + (⟨0, 1⟩ : point_t) = ⟨p.column, p.row + 1⟩ := by
    have h0 : p + (⟨0, 1⟩ : point_t) = ⟨0 + p.column, 1 + p.row⟩ := rfl
    rw [h0]
    congr 1 <;> ring
  unfold chess_delta_step
  rw [hpos]
  have hvalid : point_t.valid ⟨p.column, p.row + 1⟩ = true := by
    simp only [point_t.valid, Bool.and_eq_true, decide_eq_true_eq]
    omega
  rw [if_pos hvalid]
  have hk : (⟨p.column, p.row + 1⟩ : point_t).pidx = 9 * (p.row + 1) + p.column := rfl
  rw [hk]
  by_cases hin : 9 * (p.row + 1) + p.column < (board.length : Int)
  · rw [cellAt_eq_some board _ ⟨by omega, hin⟩, Option.some_bind]
    have hrow7 : p.row + 1 ≤ 8 := by omega
    have hnot : cellAt board (9 * (p.row + 1) + p.column) ∉ cand := by
      intro hmem
      have hfc := (mem_find_candidates board p _).1 (hsub _ hmem)
      refine hfc.2.1 ((p.row + 1).toNat) (List.mem_range.2 ?_) ?_
      · omega
      · have hcast : (((p.row + 1).toNat : Nat) : Int) = p.row + 1 :=
          Int.toNat_of_nonneg (by omega)
        rw [point_t.idx, hcast]
    rw [erase_remove_single, if_neg hnot]
  · rw [cellAt_eq_none board _ (by omega), Option.none_bind]

/-- C3: the point-validity predicate is claimed to return true iff both
coordinates lie in [0, 8], and in particular to reject a point with a
coordinate equal to 9; the source predicate checks the inclusive bound 9
and accepts the off-board point (9, 0).  This evaluates the source
predicate at that failing input. -/
theorem point_valid_accepts_column_nine : point_t.valid ⟨9, 0⟩ = true := by
  decide

/-- C10: converting (c, r) to a linear index with idx and back with r_idx
yields (c, r) for all coordinates in [0, 8], and idx inverts r_idx on every
index in [0, 80]. -/
theorem idx_r_idx_round_trip (c r k : Int) (hc0 : 0 ≤ c) (hc8 : c ≤ 8) (hr0 : 0 ≤ r)
    (hr8 : r ≤ 8) (hk0 : 0 ≤ k) (hk80 : k ≤ 80) :
    point_t.r_idx (point_t.idx c r) = ⟨c, r⟩ ∧ point_t.pidx (point_t.r_idx k) = k := by
  obtain ⟨cN, rfl⟩ : ∃ n : Nat, c = (n : Int) := ⟨c.toNat, (Int.toNat_of_nonneg hc0).symm⟩
  obtain ⟨rN, rfl⟩ : ∃ n : Nat, r = (n : Int) := ⟨r.toNat, (Int.toNat_of_nonneg hr0).symm⟩
  obtain ⟨kN, rfl⟩ : ∃ n : Nat, k = (n : Int) := ⟨k.toNat, (Int.toNat_of_nonneg hk0).symm⟩
  have hcN : cN ≤ 8 := by exact_mod_cast hc8
  have hrN : rN ≤ 8 := by exact_mod_cast hr8
  have hkN : kN ≤ 80 := by exact_mod_cast hk80
  constructor
  · have h1 : point_t.idx (cN : Int) (rN : Int) = ((9 * rN + cN : Nat) : Int) := by
      rw [point_t.idx]
      push_cast
      ring
    rw [h1, point_t.r_idx, tmod_nine, tdiv_nine, point_t.mk.injEq, Nat.cast_inj, Nat.cast_inj]
    constructor <;> omega
  · rw [point_t.r_idx, tmod_nine, tdiv_nine, point_t.pidx, point_t.idx]
    push_cast
    omega

/-- Witness for C10 at (c, r) = (4, 7) and k = 37. -/
theorem idx_r_idx_round_trip_witness :
    point_t.r_idx (point_t.idx 4 7) = ⟨4, 7⟩ ∧ point_t.pidx (point_t.r_idx 37) = 37 :=
  idx_r_idx_round_trip 4 7 37 (by decide) (by decide) (by decide) (by decide) (by decide)
    (by decide)

/-- C7: the claim states the chess removers only read indices in [0, 80]
and only erase at dereferenceable positions, so no error branch is
reachable; both error branches are in fact reachable.  On the all-zero
board at (0, 0) the first valid king delta reaches the empty neighbour
(0, 1), whose value 0 is absent from the candidate list, so the
single-iterator erase is applied to the end iterator.  On king_oob_board at
(8, 8) the first two king deltas erase values 1 and 2, and the third delta
reaches (7, 9), which passes valid() and indexes cell 88, an out-of-range
read of a length-81 board. -/
theorem chess_error_branches_reachable :
    remove_candidates_chess_king (find_candidates zero_board ⟨0, 0⟩) zero_board ⟨0, 0⟩ = none ∧
    remove_candidates_chess_king digits king_oob_board ⟨8, 8⟩ = none := by
  decide

/-- C2: the claim states that after the chess exclusion steps no digit at a
valid king or knight neighbour remains among the candidates.  In fact the
king exclusion step never completes on candidates drawn from
find_candidates: every on-board cell has an on-board neighbour directly
below or, on the bottom row, a pseudo-valid neighbour at row 9; in the
first case the neighbour shares the column of the target, so its value is 0
or already excluded and the single-iterator erase is applied to the end
iterator, and in the second case the board read is out of range.  Either
way the step is undefined behaviour, so the extended candidate computation
produces no candidate set at all. -/
theorem chess_king_on_classic_candidates_always_undefined (board : board_t) (p : point_t)
    (hlen : board.length = 81) (hc0 : 0 ≤ p.column) (hc8 : p.column ≤ 8) (hr0 : 0 ≤ p.row)
    (hr8 : p.row ≤ 8) :
    remove_candidates_chess_king (find_candidates board p) board p = none := by
  unfold remove_candidates_chess_king
  exact foldlM_chess_none board p (find_candidates board p) ⟨0, 1⟩
    (fun cand hsub => chess_step_down_none board p hlen hc0 hc8 hr0 hr8 cand hsub)
    king_move_deltas (by decide) (find_candidates board p) (fun x hx => hx)

/-- Witness for C2 on the all-zero board at (0, 0). -/
theorem chess_king_always_undefined_witness :
    remove_candidates_chess_king (find_candidates zero_board ⟨0, 0⟩) zero_board ⟨0, 0⟩ = none :=
  chess_king_on_classic_candidates_always_undefined zero_board ⟨0, 0⟩ (by decide) (by decide)
    (by decide) (by decide) (by decide)

/-! The 27 constraint units of the classic rules, as lists of board indices. -/

/-- The nine cell indices of row r. -/
def rowIdxs (r : Nat) : List Nat :=
  (List.range 9).map (fun c => 9 * r + c)

/-- The nine cell indices of column c. -/
def colIdxs (c : Nat) : List Nat :=
  (List.range 9).map (fun r => 9 * r + c)

/-- The nine cell indices of 3x3 box b, boxes numbered row-major with
origin column 3 * (b % 3) and origin row 3 * (b / 3). -/
def boxIdxs (b : Nat) : List Nat :=
  (List.range 9).map (fun j => 9 * (3 * (b / 3) + j / 3) + (3 * (b % 3) + j % 3))

/-- All 27 units: 9 rows, 9 columns, 9 boxes. -/
def units : List (List Nat) :=
  (List.range 9).map rowIdxs ++ (List.range 9).map colIdxs ++ (List.range 9).map boxIdxs

/-- How many cells of the unit u hold the value d on the board. -/
def countD (board : board_t) (u : List Nat) (d : Int) : Nat :=
  u.countP (fun k => board.getD k 0 = d)

/-- The given cells of the board are consistent: every cell value lies in
[0, 9] and no digit occurs twice in any row, column, or box. -/
def partial_valid (board : board_t) : Prop :=
  (∀ x ∈ board, 0 ≤ x ∧ x ≤ 9) ∧ ∀ u ∈ units, ∀ d ∈ digits, countD board u d ≤ 1

/-- The classic rule invariant: every row, column, and box contains each
digit 1-9 exactly once. -/
def valid_solution (board : board_t) : Prop :=
  ∀ u ∈ units, ∀ d ∈ digits, countD board u d = 1

instance (board : board_t) : Decidable (partial_valid board) := by
  unfold partial_valid
  infer_instance

instance (board : board_t) : Decidable (valid_solution board) := by
  unfold valid_solution
  infer_instance

/-- Membership in the digit list is exactly the range [1, 9]. -/
theorem mem_digits_iff (d : Int) : d ∈ digits ↔ 1 ≤ d ∧ d ≤ 9 := by
  constructor
  · intro h
    fin_cases h <;> omega
  · intro h
    have h9 : d = 1 ∨ d = 2 ∨ d = 3 ∨ d = 4 ∨ d = 5 ∨ d = 6 ∨ d = 7 ∨ d = 8 ∨ d = 9 := by omega
    rcases h9 with rfl | rfl | rfl | rfl | rfl | rfl | rfl | rfl | rfl <;> decide

/-- Every unit is duplicate-free. -/
theorem units_nodup : ∀ u ∈ units, u.Nodup := by
  decide

/-- Every unit cell index is on the board. -/
theorem units_bound : ∀ u ∈ units, ∀ k ∈ u, k < 81 := by
  decide

/-- Every unit has nine cells. -/
theorem units_length : ∀ u ∈ units, u.length = 9 := by
  decide

/-- A unit containing cell i is the row of i, the column of i, or the box
of i. -/
theorem unit_of_mem (u : List Nat) (hu : u ∈ units) (i : Nat) (hi : i ∈ u) :
    u = rowIdxs (i / 9) ∨ u = colIdxs (i % 9) ∨ u = boxIdxs (3 * (i / 9 / 3) + i % 9 / 3) := by
  unfold units at hu
  rcases List.mem_append.1 hu with hu1 | hu2
  · rcases List.mem_append.1 hu1 with hrow | hcol
    · obtain ⟨r, hr, rfl⟩ := List.mem_map.1 hrow
      obtain ⟨c, hc, hk⟩ := List.mem_map.1 hi
      have hr9 := List.mem_range.1 hr
      have hc9 := List.mem_range.1 hc
      left
      have : i / 9 = r := by omega
      rw [this]
    · obtain ⟨c, hc, rfl⟩ := List.mem_map.1 hcol
      obtain ⟨r, hr, hk⟩ := List.mem_map.1 hi
      have hr9 := List.mem_range.1 hr
      have hc9 := List.mem_range.1 hc
      right; left
      have : i % 9 = c := by omega
      rw [this]
  · obtain ⟨b, hb, rfl⟩ := List.mem_map.1 hu2
    obtain ⟨j, hj, hk⟩ := List.mem_map.1 hi
    have hb9 := List.mem_range.1 hb
    have hj9 := List.mem_range.1 hj
    right; right
    have : 3 * (i / 9 / 3) + i % 9 / 3 = b := by omega
    rw [this]

/-- Int.tdiv by the literal 3 on a natural-number cast. -/
theorem tdiv_three (m : Nat) : (m : Int).tdiv 3 = ((m / 3 : Nat) : Int) :=
  rfl

/-- The total read at a cast in-range index is List.getD. -/
theorem cellAt_natCast (board : board_t) (k : Nat) (hlen : board.length = 81) (hk : k < 81) :
    cellAt board (k : Int) = board.getD k 0 := by
  unfold cellAt
  rw [if_pos ⟨Int.natCast_nonneg k, by rw [hlen]; exact_mod_cast hk⟩]
  simp

/-- A candidate returned by find_candidates for cell i is a digit and
differs from the value of every cell of every unit containing i. -/
theorem find_candidates_excludes_units (board : board_t) (i : Nat) (hlen : board.length = 81)
    (hi : i < 81) (pos : Int) (hpos : pos ∈ find_candidates board (point_t.r_idx (i : Int))) :
    pos ∈ digits ∧ ∀ u ∈ units, i ∈ u → ∀ k ∈ u, board.getD k 0 ≠ pos := by
  rw [mem_find_candidates] at hpos
  obtain ⟨hdig, hcol, hrow, hbox⟩ := hpos
  have hpc : (point_t.r_idx (i : Int)).column = ((i % 9 : Nat) : Int) := tmod_nine i
  have hpr : (point_t.r_idx (i : Int)).row = ((i / 9 : Nat) : Int) := tdiv_nine i
  refine ⟨hdig, ?_⟩
  intro u hu hiu k hk
  rcases unit_of_mem u hu i hiu with hcase | hcase | hcase
  · subst hcase
    obtain ⟨c, hc, hkc⟩ := List.mem_map.1 hk
    have hc9 := List.mem_range.1 hc
    intro heq
    apply hrow c hc
    rw [hpr]
    have hidx : point_t.idx (c : Int) ((i / 9 : Nat) : Int) = ((k : Nat) : Int) := by
      rw [point_t.idx]
      push_cast
      omega
    rw [hidx, cellAt_natCast board k hlen (by omega)]
    exact heq.symm
  · subst hcase
    obtain ⟨r, hr, hkr⟩ := List.mem_map.1 hk
    have hr9 := List.mem_range.1 hr
    intro heq
    apply hcol r hr
    rw [hpc]
    have hidx : point_t.idx ((i % 9 : Nat) : Int) (r : Int) = ((k : Nat) : Int) := by
      rw [point_t.idx]
      push_cast
      omega
    rw [hidx, cellAt_natCast board k hlen (by omega)]
    exact heq.symm
  · subst hcase
    obtain ⟨j, hj, hkj⟩ := List.mem_map.1 hk
    have hj9 := List.mem_range.1 hj
    intro heq
    apply hbox (j % 3) (List.mem_range.2 (by omega)) (j / 3) (List.mem_range.2 (by omega))
    have hbc : (point_t.get_box_start (point_t.r_idx (i : Int))).column
        = ((i % 9 / 3 * 3 : Nat) : Int) := by
      show (point_t.r_idx (i : Int)).column.tdiv 3 * 3 = _
      rw [hpc, tdiv_three]
      push_cast
      ring
    have hbr : (point_t.get_box_start (point_t.r_idx (i : Int))).row
        = ((i / 9 / 3 * 3 : Nat) : Int) := by
      show (point_t.r_idx (i : Int)).row.tdiv 3 * 3 = _
      rw [hpr, tdiv_three]
      push_cast
      ring
    rw [hbc, hbr]
    have hidx : point_t.idx (((i % 9 / 3 * 3 : Nat) : Int) + ((j % 3 : Nat) : Int))
        (((i / 9 / 3 * 3 : Nat) : Int) + ((j / 3 : Nat) : Int)) = ((k : Nat) : Int) := by
      rw [point_t.idx]
      push_cast
      omega
    rw [hidx, cellAt_natCast board k hlen (by omega)]
    exact heq.symm

/-! List.getD through List.set. -/

/-- Setting one cell leaves the reads of every other cell unchanged. -/
theorem getD_set_ne (l : List Int) (i k : Nat) (a : Int) (h : i ≠ k) :
    (l.set i a).getD k 0 = l.getD k 0 := by
  rw [List.getD_eq_getElem?_getD, List.getD_eq_getElem?_getD, List.getElem?_set_ne h]

/-- Setting an in-range cell makes its read return the new value. -/
theorem getD_set_self (l : List Int) (i : Nat) (a : Int) (h : i < l.length) :
    (l.set i a).getD i 0 = a := by
  rw [List.getD_eq_getElem?_getD, List.getElem?_set_self h]
  rfl

/-- A unit avoiding the set cell keeps its counts. -/
theorem countD_set_not_mem (board : board_t) (u : List Nat) (i : Nat) (a d : Int)
    (hiu : i ∉ u) : countD (board.set i a) u d = countD board u d := by
  unfold countD
  apply List.countP_congr
  intro k hk
  have hne : i ≠ k := fun e => hiu (e ▸ hk)
  rw [getD_set_ne board i k a hne]

/-- Placing a value excluded from a unit into an empty cell of that unit
keeps every digit count at most one. -/
theorem countD_set_le (board : board_t) (u : List Nat) (i : Nat) (pos d : Int)
    (hnd : u.Nodup) (hiu : i ∈ u) (hilen : i < board.length)
    (hzero : board.getD i 0 = 0) (hd1 : 1 ≤ d)
    (hcount : countD board u d ≤ 1)
    (hexcl : d = pos → ∀ k ∈ u, board.getD k 0 ≠ pos) :
    countD (board.set i pos) u d ≤ 1 := by
  obtain ⟨s, t, rfl⟩ := List.append_of_mem hiu
  have hnd2 := List.nodup_append.1 hnd
  have hits : i ∉ t := (List.nodup_cons.1 hnd2.2.1).1
  have hiss : i ∉ s := fun hs => hnd2.2.2 hs (List.mem_cons_self i t)
  unfold countD at hcount ⊢
  rw [List.countP_append, List.countP_cons] at hcount ⊢
  have hs : List.countP (fun k => decide ((board.set i pos).getD k 0 = d)) s
      = List.countP (fun k => decide (board.getD k 0 = d)) s := by
    apply List.countP_congr
    intro k hk
    rw [getD_set_ne board i k pos (fun e => hiss (e ▸ hk))]
  have ht : List.countP (fun k => decide ((board.set i pos).getD k 0 = d)) t
      = List.countP (fun k => decide (board.getD k 0 = d)) t := by
    apply List.countP_congr
    intro k hk
    rw [getD_set_ne board i k pos (fun e => hits (e ▸ hk))]
  rw [hs, ht, getD_set_self board i pos hilen]
  rw [hzero] at hcount
  by_cases hdp : d = pos
  · have hzs : List.countP (fun k => decide (board.getD k 0 = d)) s = 0 := by
      rw [List.countP_eq_zero]
      intro k hk
      simp only [decide_eq_true_eq]
      rw [hdp]
      exact hexcl hdp k (List.mem_append.2 (Or.inl hk))
    have hzt : List.countP (fun k => decide (board.getD k 0 = d)) t = 0 := by
      rw [List.countP_eq_zero]
      intro k hk
      simp only [decide_eq_true_eq]
      rw [hdp]
      exact hexcl hdp k (List.mem_append.2 (Or.inr (List.mem_cons_of_mem i hk)))
    rw [hzs, hzt]
    split <;> omega
  · have h1 : (if (decide (pos = d)) = true then 1 else 0) = 0 := by
      simp only [decide_eq_true_eq]
      exact if_neg (fun e => hdp e.symm)
    have h2 : (if (decide ((0 : Int) = d)) = true then 1 else 0) = 0 := by
      simp only [decide_eq_true_eq]
      exact if_neg (by omega)
    rw [h1]
    rw [h2] at hcount
    omega

/-- Placing any candidate returned by find_candidates into the empty cell
it was computed for preserves consistency of the board. -/
theorem partial_valid_set (board : board_t) (i : Nat) (pos : Int) (hlen : board.length = 81)
    (hi : i < 81) (hzero : board.getD i 0 = 0)
    (hpos : pos ∈ find_candidates board (point_t.r_idx (i : Int)))
    (hpv : partial_valid board) : partial_valid (board.set i pos) := by
  obtain ⟨hdig, hexcl⟩ := find_candidates_excludes_units board i hlen hi pos hpos
  have hposb := (mem_digits_iff pos).1 hdig
  constructor
  · intro x hx
    rcases List.mem_or_eq_of_mem_set hx with hx1 | rfl
    · exact hpv.1 x hx1
    · omega
  · intro u hu d hd
    by_cases hiu : i ∈ u
    · exact countD_set_le board u i pos d (units_nodup u hu) hiu (by rw [hlen]; exact hi)
        hzero ((mem_digits_iff d).1 hd).1 (hpv.2 u hu d hd) (fun _ => hexcl u hu hiu)
    · rw [countD_set_not_mem board u i pos d hiu]
      exact hpv.2 u hu d hd

/-! Behaviour of the candidate loop. -/

/-- Both the error state and the found state absorb the rest of the fold. -/
theorem foldl_try_step_absorb (g : Int → Option board_t) (l : List Int) :
    l.foldl (try_step g) none = none ∧
      ∀ r, l.foldl (try_step g) (some (some r)) = some (some r) := by
  induction l with
  | nil => exact ⟨rfl, fun r => rfl⟩
  | cons a l ih => exact ⟨ih.1, fun r => ih.2 r⟩

/-- The candidate loop either exhausts the list still searching, hits
undefined behaviour in a recursive call, or returns the first completed
attempt. -/
theorem try_fold_cases (g : Int → Option board_t) (cands : List Int) :
    try_fold g cands = some none ∨ try_fold g cands = none ∨
      ∃ pos r, pos ∈ cands ∧ g pos = some r ∧ is_completed r = true ∧
        try_fold g cands = some (some r) := by
  induction cands with
  | nil => exact Or.inl rfl
  | cons pos rest ih =>
    have hstep : try_fold g (pos :: rest) = rest.foldl (try_step g) (try_step g (some none) pos) :=
      rfl
    cases hgp : g pos with
    | none =>
      refine Or.inr (Or.inl ?_)
      rw [hstep]
      have h1 : try_step g (some none) pos = none := by simp [try_step, hgp]
      rw [h1]
      exact (foldl_try_step_absorb g rest).1
    | some attempt =>
      by_cases hca : is_completed attempt = true
      · refine Or.inr (Or.inr ⟨pos, attempt, List.mem_cons_self pos rest, hgp, hca, ?_⟩)
        rw [hstep]
        have h1 : try_step g (some none) pos = some (some attempt) := by
          simp [try_step, hgp, hca]
        rw [h1]
        exact (foldl_try_step_absorb g rest).2 attempt
      · have h1 : try_step g (some none) pos = some none := by simp [try_step, hgp, hca]
        rw [hstep, h1]
        rcases ih with h | h | ⟨p2, r2, hmem, hg2, hc2, heq⟩
        · exact Or.inl h
        · exact Or.inr (Or.inl h)
        · exact Or.inr (Or.inr ⟨p2, r2, List.mem_cons_of_mem pos hmem, hg2, hc2, heq⟩)

/-- If no recursive call hits undefined behaviour, the candidate loop does
not either. -/
theorem try_fold_ne_none (g : Int → Option board_t) (cands : List Int)
    (hg : ∀ pos ∈ cands, g pos ≠ none) : try_fold g cands ≠ none := by
  induction cands with
  | nil => exact fun h => Option.noConfusion h
  | cons pos rest ih =>
    cases hgp : g pos with
    | none => exact absurd hgp (hg pos (List.mem_cons_self pos rest))
    | some attempt =>
      by_cases hca : is_completed attempt = true
      · have h1 : try_fold g (pos :: rest) = some (some attempt) := by
          show rest.foldl (try_step g) (try_step g (some none) pos) = _
          have h2 : try_step g (some none) pos = some (some attempt) := by
            simp [try_step, hgp, hca]
          rw [h2]
          exact (foldl_try_step_absorb g rest).2 attempt
        rw [h1]
        exact fun h => Option.noConfusion h
      · have h1 : try_fold g (pos :: rest) = try_fold g rest := by
          show rest.foldl (try_step g) (try_step g (some none) pos) = _
          have h2 : try_step g (some none) pos = some none := by simp [try_step, hgp, hca]
          rw [h2]
          rfl
        rw [h1]
        exact ih (fun p hp => hg p (List.mem_cons_of_mem pos hp))

/-! Behaviour of the scan loop. -/

/-- A found cell lies between the start of the scan and index 80 and holds
the value 0. -/
theorem ffe_from_found (board : board_t) : ∀ (rem i j : Nat),
    find_first_empty_from board rem i = some (some j) →
    i ≤ j ∧ j < i + rem ∧ board[j]? = some 0 := by
  intro rem
  induction rem with
  | zero =>
    intro i j h
    exact absurd h (by simp [find_first_empty_from])
  | succ rem ih =>
    intro i j h
    cases hg : board[i]? with
    | none => simp [find_first_empty_from, hg] at h
    | some v =>
      simp only [find_first_empty_from, hg] at h
      by_cases hv : v = 0
      · rw [if_pos hv] at h
        obtain rfl := Option.some.inj (Option.some.inj h)
        refine ⟨Nat.le_refl i, by omega, ?_⟩
        rw [hg, hv]
      · rw [if_neg hv] at h
        obtain ⟨h1, h2, h3⟩ := ih (i + 1) j h
        exact ⟨by omega, by omega, h3⟩

/-- The scan from start finds a first empty cell in [start, 80] when it
reports one. -/
theorem ffe_found (board : board_t) (s j : Nat)
    (h : find_first_empty board s = some (some j)) :
    s ≤ j ∧ j < 81 ∧ board[j]? = some 0 := by
  obtain ⟨h1, h2, h3⟩ := ffe_from_found board (81 - s) s j h
  exact ⟨h1, by omega, h3⟩

/-- On a length-81 board the scan never reads out of range. -/
theorem ffe_from_ne_none (board : board_t) (hlen : board.length = 81) :
    ∀ (rem i : Nat), rem ≤ 81 - i → find_first_empty_from board rem i ≠ none := by
  intro rem
  induction rem with
  | zero => exact fun i _ h => Option.noConfusion h
  | succ rem ih =>
    intro i hle
    cases hg : board[i]? with
    | none =>
      have := List.getElem?_eq_none_iff.1 hg
      omega
    | some v =>
      simp only [find_first_empty_from, hg]
      by_cases hv : v = 0
      · rw [if_pos hv]
        exact fun h => Option.noConfusion h
      · rw [if_neg hv]
        exact ih (i + 1) (by omega)

/-- The scan itself never errors on a length-81 board. -/
theorem ffe_ne_none (board : board_t) (hlen : board.length = 81) (s : Nat) :
    find_first_empty board s ≠ none :=
  ffe_from_ne_none board hlen (81 - s) s (by omega)

/-! The solver postcondition: shape, frame, and consistency preservation. -/

/-- The result agrees with the input at every given (non-zero) cell. -/
def preserves_givens (board r : board_t) : Prop :=
  ∀ k, k < 81 → board.getD k 0 ≠ 0 → r.getD k 0 = board.getD k 0

/-- Every board returned by the solver is either the empty sentinel or a
completed board that keeps the givens and, for a consistent input, stays
consistent. -/
def solve_post (board r : board_t) : Prop :=
  r = [] ∨ (is_completed r = true ∧ preserves_givens board r ∧
    (partial_valid board → partial_valid r))

/-- The master induction on the solver: any returned board satisfies the
postcondition. -/
theorem solve_rec_fuel_post (fuel : Nat) :
    ∀ (board : board_t) (s : Nat) (r : board_t), board.length = 81 →
      solve_rec_fuel fuel board s = some r → solve_post board r := by
  induction fuel with
  | zero =>
    intro board s r hlen h
    exact absurd h (by simp [solve_rec_fuel])
  | succ fuel ih =>
    intro board s r hlen h
    rw [solve_rec_fuel] at h
    by_cases hcomp : is_completed board = true
    · rw [if_pos hcomp] at h
      obtain rfl := Option.some.inj h
      exact Or.inr ⟨hcomp, fun k _ _ => rfl, fun hpv => hpv⟩
    · rw [if_neg hcomp] at h
      cases hfe : find_first_empty board s with
      | none =>
        rw [hfe] at h
        simp only [scan_dispatch] at h
        exact Option.noConfusion h
      | some oi =>
        cases oi with
        | none =>
          rw [hfe] at h
          simp only [scan_dispatch] at h
          obtain rfl := Option.some.inj h
          exact Or.inl rfl
        | some i =>
          rw [hfe] at h
          simp only [scan_dispatch] at h
          obtain ⟨hsi, hi81, hget⟩ := ffe_found board s i hfe
          have hilen : i < board.length := by rw [hlen]; exact hi81
          have hzero : board.getD i 0 = 0 := by
            rw [List.getD_eq_getElem?_getD, hget]
            rfl
          rcases try_fold_cases (fun pos => solve_rec_fuel fuel (board.set i pos) (i + 1))
              (find_candidates board (point_t.r_idx (i : Int))) with
            htf | htf | ⟨pos, r0, hpm, hg0, hc0, htf⟩
          · rw [htf] at h
            simp only [branch_result] at h
            obtain rfl := Option.some.inj h
            exact Or.inl rfl
          · rw [htf] at h
            simp only [branch_result] at h
            exact Option.noConfusion h
          · rw [htf] at h
            simp only [branch_result] at h
            obtain rfl := Option.some.inj h
            have hlen2 : (board.set i pos).length = 81 := by rw [List.length_set, hlen]
            have hpost := ih (board.set i pos) (i + 1) r0 hlen2 hg0
            rcases hpost with rfl | ⟨hcomp0, hpres0, hpv0⟩
            · exact absurd hc0 (by decide)
            · refine Or.inr ⟨hcomp0, ?_, ?_⟩
              · intro k hk hnz
                have hki : i ≠ k := fun e => hnz (e ▸ hzero)
                have hset : (board.set i pos).getD k 0 = board.getD k 0 :=
                  getD_set_ne board i k pos hki
                have hr0 := hpres0 k hk (by rw [hset]; exact hnz)
                rw [hr0, hset]
              · intro hpv
                exact hpv0 (partial_valid_set board i pos hlen hi81 hzero hpm hpv)

/-! Termination: the number of empty cells from the start index bounds the
recursion depth. -/

/-- The number of empty cells at index s or later. -/
def zeros_from (board : board_t) (s : Nat) : Nat :=
  (board.drop s).countP (fun c => c = 0)

/-- An empty cell contributes one to the count of its tail. -/
theorem zeros_from_succ (board : board_t) (i : Nat) (hilen : i < board.length)
    (hz : board.getD i 0 = 0) : zeros_from board i = zeros_from board (i + 1) + 1 := by
  unfold zeros_from
  rw [List.drop_eq_getElem_cons hilen, List.countP_cons]
  have hb : board[i] = (0 : Int) := by
    rw [← List.getD_eq_getElem board 0 hilen]
    exact hz
  rw [hb]
  simp

/-- Dropping more cells cannot increase the count of empty ones. -/
theorem zeros_from_mono (board : board_t) (s i : Nat) (h : s ≤ i) :
    zeros_from board i ≤ zeros_from board s := by
  unfold zeros_from
  have h1 : board.drop i = (board.drop s).drop (i - s) := by
    rw [List.drop_drop]
    congr 1
    omega
  rw [h1]
  exact List.Sublist.countP_le _ (List.drop_sublist _ _)

/-- With a depth budget exceeding the number of empty cells, the solver
never exhausts it and never reads out of range on a length-81 board. -/
theorem solve_rec_fuel_total (fuel : Nat) :
    ∀ (board : board_t) (s : Nat), board.length = 81 → zeros_from board s < fuel →
      solve_rec_fuel fuel board s ≠ none := by
  induction fuel with
  | zero =>
    intro board s hlen hz
    exact absurd hz (by omega)
  | succ fuel ih =>
    intro board s hlen hz
    rw [solve_rec_fuel]
    by_cases hcomp : is_completed board = true
    · rw [if_pos hcomp]
      exact fun h => Option.noConfusion h
    · rw [if_neg hcomp]
      cases hfe : find_first_empty board s with
      | none => exact absurd hfe (ffe_ne_none board hlen s)
      | some oi =>
        cases oi with
        | none => simp [scan_dispatch]
        | some i =>
          simp only [scan_dispatch]
          obtain ⟨hsi, hi81, hget⟩ := ffe_found board s i hfe
          have hilen : i < board.length := by rw [hlen]; exact hi81
          have hzero : board.getD i 0 = 0 := by
            rw [List.getD_eq_getElem?_getD, hget]
            rfl
          have hne : try_fold (fun pos => solve_rec_fuel fuel (board.set i pos) (i + 1))
              (find_candidates board (point_t.r_idx (i : Int))) ≠ none := by
            apply try_fold_ne_none
            intro pos _
            apply ih (board.set i pos) (i + 1) (by rw [List.length_set, hlen])
            have hdrop : (board.set i pos).drop (i + 1) = board.drop (i + 1) :=
              List.drop_set_of_lt pos board (by omega)
            have he1 : zeros_from (board.set i pos) (i + 1) = zeros_from board (i + 1) := by
              unfold zeros_from
              rw [hdrop]
            have he2 := zeros_from_succ board i hilen hzero
            have he3 := zeros_from_mono board s i hsi
            omega
          cases htf : try_fold (fun pos => solve_rec_fuel fuel (board.set i pos) (i + 1))
              (find_candidates board (point_t.r_idx (i : Int))) with
          | none => exact absurd htf hne
          | some oo =>
            cases oo with
            | none => simp [branch_result]
            | some done => simp [branch_result]

/-! Pigeonhole: a completed consistent board satisfies the full rule
invariant. -/

/-- A sum of at-most-one summands is at most the number of summands. -/
theorem sum_le_length (l : List Int) (c : Int → Nat) (hle : ∀ d ∈ l, c d ≤ 1) :
    (l.map c).sum ≤ l.length := by
  induction l with
  | nil => simp
  | cons a l ih =>
    simp only [List.map_cons, List.sum_cons, List.length_cons]
    have h1 := hle a (List.mem_cons_self a l)
    have h2 := ih (fun d hd => hle d (List.mem_cons_of_mem a hd))
    omega

/-- A sum of at-most-one summands reaching the number of summands makes
every summand one. -/
theorem counts_all_one (l : List Int) (c : Int → Nat) (hle : ∀ d ∈ l, c d ≤ 1)
    (hsum : (l.map c).sum = l.length) : ∀ d ∈ l, c d = 1 := by
  induction l with
  | nil =>
    intro d hd
    cases hd
  | cons a l ih =>
    simp only [List.map_cons, List.sum_cons, List.length_cons] at hsum
    have h1 := hle a (List.mem_cons_self a l)
    have h2 : ∀ d ∈ l, c d ≤ 1 := fun d hd => hle d (List.mem_cons_of_mem a hd)
    have h3 := sum_le_length l c h2
    have hca : c a = 1 := by omega
    have hrest : (l.map c).sum = l.length := by omega
    intro d hd
    rcases List.mem_cons.1 hd with rfl | hd2
    · exact hca
    · exact ih h2 hrest d hd2

/-- Pointwise sums of mapped values split. -/
theorem map_sum_add {α : Type} (f g : α → Nat) (l : List α) :
    (l.map (fun a => f a + g a)).sum = (l.map f).sum + (l.map g).sum := by
  induction l with
  | nil => rfl
  | cons a l ih =>
    simp only [List.map_cons, List.sum_cons, ih]
    omega

/-- A value in [1, 9] matches exactly one digit. -/
theorem sum_ifs_one (v : Int) (h1 : 1 ≤ v) (h9 : v ≤ 9) :
    (digits.map (fun d => if v = d then (1 : Nat) else 0)).sum = 1 := by
  interval_cases v <;> decide

/-- Over cells all holding digits, the digit counts of a unit sum to the
number of its cells. -/
theorem sum_counts (board : board_t) (u : List Nat)
    (hvals : ∀ k ∈ u, 1 ≤ board.getD k 0 ∧ board.getD k 0 ≤ 9) :
    (digits.map (fun d => countD board u d)).sum = u.length := by
  induction u with
  | nil => simp [countD]
  | cons k u ih =>
    have hk := hvals k (List.mem_cons_self k u)
    have hu2 : ∀ k2 ∈ u, 1 ≤ board.getD k2 0 ∧ board.getD k2 0 ≤ 9 :=
      fun k2 hk2 => hvals k2 (List.mem_cons_of_mem k hk2)
    have hstep : ∀ d : Int,
        countD board (k :: u) d = countD board u d + (if board.getD k 0 = d then 1 else 0) := by
      intro d
      unfold countD
      rw [List.countP_cons]
      simp
    calc (digits.map (fun d => countD board (k :: u) d)).sum
        = (digits.map (fun d => countD board u d +
            (if board.getD k 0 = d then 1 else 0))).sum := by
          rw [List.map_congr_left (fun d _ => hstep d)]
      _ = (digits.map (fun d => countD board u d)).sum +
            (digits.map (fun d => if board.getD k 0 = d then (1 : Nat) else 0)).sum :=
          map_sum_add _ _ _
      _ = u.length + 1 := by rw [ih hu2, sum_ifs_one (board.getD k 0) hk.1 hk.2]
      _ = (k :: u).length := rfl

/-- A completed consistent board satisfies the classic rule invariant. -/
theorem completed_valid (board : board_t) (hpv : partial_valid board)
    (hcomp : is_completed board = true) : valid_solution board := by
  have hc2 : board.length = 81 ∧ ∀ x ∈ board, x ≠ 0 := by
    simp only [is_completed, Bool.and_eq_true, decide_eq_true_eq, List.all_eq_true] at hcomp
    exact hcomp
  intro u hu d hd
  have hvals : ∀ k ∈ u, 1 ≤ board.getD k 0 ∧ board.getD k 0 ≤ 9 := by
    intro k hk
    have hk81 := units_bound u hu k hk
    have hklen : k < board.length := by omega
    have hmem : board.getD k 0 ∈ board := by
      rw [List.getD_eq_getElem board 0 hklen]
      exact List.getElem_mem hklen
    have hrange := hpv.1 _ hmem
    have hnz := hc2.2 _ hmem
    omega
  have hsum := sum_counts board u hvals
  exact counts_all_one digits (fun d2 => countD board u d2) (hpv.2 u hu)
    (by rw [hsum, units_length u hu]; rfl) d hd

/-- The board has a valid completion: some completed board satisfying the
classic rule invariant agrees with every given cell of the input. -/
def has_solution (board : board_t) : Prop :=
  ∃ r, is_completed r = true ∧ valid_solution r ∧ preserves_givens board r

/-- C1 counterexample: the all-fives board is complete, so solve_recursive
returns it unchanged, yet its rows repeat the digit 5, so the returned
complete board violates the row/column/box invariant. -/
theorem solver_returns_invalid_complete_board :
    solve_recursive all_fives 0 = some all_fives ∧ is_completed all_fives = true ∧
      ¬ valid_solution all_fives :=
  ⟨by decide, by decide, by decide⟩

/-- C1 amended: for every input board of length 81 whose given cells are
consistent (values in [0, 9], no digit twice in a row, column, or box),
every complete board returned by solve_recursive contains each digit 1-9
exactly once in every row, column, and box. -/
theorem solve_complete_is_valid (board r : board_t) (hlen : board.length = 81)
    (hpv : partial_valid board) (hs : solve_recursive board 0 = some r)
    (hcomp : is_completed r = true) : valid_solution r := by
  rcases solve_rec_fuel_post 82 board 0 r hlen hs with rfl | ⟨h1, h2, h3⟩
  · exact absurd hcomp (by decide)
  · exact completed_valid r (h3 hpv) h1

/-- Witness for C1 amended: the one-blank puzzle solves to full_grid, which
satisfies the invariant. -/
theorem solve_complete_is_valid_witness :
    one_blank_board.length = 81 ∧ partial_valid one_blank_board ∧ valid_solution full_grid :=
  ⟨by decide, by decide,
    solve_complete_is_valid one_blank_board full_grid (by decide) (by decide) (by decide)
      (by decide)⟩

/-- C4 counterexample: the all-fives board is a length-81 input with values
in [0, 9] that is unsatisfiable (its only completion is itself, which
violates the rules), yet solve_recursive returns it as a complete board
rather than the empty sentinel. -/
theorem unsatisfiable_input_not_sentinel :
    solve_recursive all_fives 0 = some all_fives ∧ ¬ has_solution all_fives ∧
      all_fives ≠ ([] : board_t) := by
  refine ⟨by decide, ?_, by decide⟩
  rintro ⟨r, hcomp, hval, hpres⟩
  have hrlen : r.length = 81 := by
    simp only [is_completed, Bool.and_eq_true, decide_eq_true_eq] at hcomp
    exact hcomp.1
  have hflen : all_fives.length = 81 := by decide
  have hreq : r = all_fives := by
    apply List.ext_getElem (by omega)
    intro n h1 h2
    have hn81 : n < 81 := by omega
    have h5 : all_fives.getD n 0 = 5 := by
      rw [List.getD_eq_getElem all_fives 0 h2]
      exact List.getElem_replicate 5 h2
    have hp := hpres n hn81 (by rw [h5]; decide)
    rw [List.getD_eq_getElem r 0 h1, List.getD_eq_getElem all_fives 0 h2] at hp
    exact hp
  rw [hreq] at hval
  exact absurd hval (by decide)

/-- C4 amended: every length-81 input with values in [0, 9] produces some
result, and that result is a complete board or the empty sentinel, with no
other shape; if moreover the givens are consistent and the board has no
valid completion, the result is the empty sentinel. -/
theorem solve_shape_and_unsat (board : board_t) (hlen : board.length = 81)
    (hrange : ∀ x ∈ board, 0 ≤ x ∧ x ≤ 9) :
    (∃ r, solve_recursive board 0 = some r ∧ (is_completed r = true ∨ r = [])) ∧
      ((∀ u ∈ units, ∀ d ∈ digits, countD board u d ≤ 1) → ¬ has_solution board →
        solve_recursive board 0 = some []) := by
  have htot : solve_rec_fuel 82 board 0 ≠ none := by
    apply solve_rec_fuel_total 82 board 0 hlen
    have h1 : (board.drop 0).countP (fun c => decide (c = 0)) ≤ (board.drop 0).length :=
      List.countP_le_length _
    have h2 : (board.drop 0).length = 81 := by rw [List.length_drop]; omega
    unfold zeros_from
    omega
  constructor
  · cases hres : solve_recursive board 0 with
    | none => exact absurd hres htot
    | some r =>
      refine ⟨r, rfl, ?_⟩
      rcases solve_rec_fuel_post 82 board 0 r hlen hres with rfl | ⟨h1, _, _⟩
      · exact Or.inr rfl
      · exact Or.inl h1
  · intro hnodup hnosol
    cases hres : solve_recursive board 0 with
    | none => exact absurd hres htot
    | some r =>
      rcases solve_rec_fuel_post 82 board 0 r hlen hres with rfl | ⟨h1, h2, h3⟩
      · rfl
      · exact absurd ⟨r, h1, completed_valid r (h3 ⟨hrange, hnodup⟩) h1, h2⟩ hnosol

/-- Witness for C4 amended at the unsatisfiable puzzle with consistent
givens. -/
theorem solve_shape_and_unsat_witness :
    (∃ r, solve_recursive unsat_board 0 = some r ∧ (is_completed r = true ∨ r = [])) ∧
      ((∀ u ∈ units, ∀ d ∈ digits, countD unsat_board u d ≤ 1) → ¬ has_solution unsat_board →
        solve_recursive unsat_board 0 = some []) :=
  solve_shape_and_unsat unsat_board (by decide) (by decide)

/-- C5: on a length-81 board, a recursion budget exceeding the number of
empty cells after the start index is never exhausted (and never hits an
out-of-range read), and that number is itself at most 81: the recursion
depth is bounded by the number of empty cells. -/
theorem solve_terminates_within_empty_bound (board : board_t) (s fuel : Nat)
    (hlen : board.length = 81) (hfuel : zeros_from board s < fuel) :
    (solve_rec_fuel fuel board s).isSome = true ∧ zeros_from board s ≤ 81 := by
  constructor
  · have hne := solve_rec_fuel_total fuel board s hlen hfuel
    cases h : solve_rec_fuel fuel board s with
    | none => exact absurd h hne
    | some r => rfl
  · have h1 : (board.drop s).countP (fun c => decide (c = 0)) ≤ (board.drop s).length :=
      List.countP_le_length _
    have h2 : (board.drop s).length = 81 - s := by rw [List.length_drop, hlen]
    unfold zeros_from
    omega

/-- Witness for C5 on the one-blank puzzle with budget 2. -/
theorem solve_terminates_witness :
    (solve_rec_fuel 2 one_blank_board 0).isSome = true ∧ zeros_from one_blank_board 0 ≤ 81 :=
  solve_terminates_within_empty_bound one_blank_board 0 2 (by decide) (by decide)

/-- C6: for a length-81 board and an on-board point p with an empty cell,
every candidate is a digit in [1, 9] and no value read along the row of p,
the column of p, or the 3x3 box of p equals a candidate. -/
theorem candidates_subset_digits_and_exclusive (board : board_t) (p : point_t)
    (hlen : board.length = 81) (hc0 : 0 ≤ p.column) (hc8 : p.column ≤ 8)
    (hr0 : 0 ≤ p.row) (hr8 : p.row ≤ 8) (hempty : cellAt board p.pidx = 0) :
    ∀ d ∈ find_candidates board p,
      (1 ≤ d ∧ d ≤ 9) ∧
      (∀ c2 : Int, 0 ≤ c2 → c2 ≤ 8 → cellAt board (point_t.idx c2 p.row) ≠ d) ∧
      (∀ r2 : Int, 0 ≤ r2 → r2 ≤ 8 → cellAt board (point_t.idx p.column r2) ≠ d) ∧
      (∀ dc dr : Int, 0 ≤ dc → dc ≤ 2 → 0 ≤ dr → dr ≤ 2 →
        cellAt board (point_t.idx ((point_t.get_box_start p).column + dc)
          ((point_t.get_box_start p).row + dr)) ≠ d) := by
  intro d hd
  rw [mem_find_candidates] at hd
  obtain ⟨hdig, hcol, hrow, hbox⟩ := hd
  refine ⟨(mem_digits_iff d).1 hdig, ?_, ?_, ?_⟩
  · intro c2 h0 h8
    obtain ⟨cN, rfl⟩ : ∃ n : Nat, c2 = (n : Int) := ⟨c2.toNat, (Int.toNat_of_nonneg h0).symm⟩
    have hcN : cN ≤ 8 := by exact_mod_cast h8
    exact fun he => hrow cN (List.mem_range.2 (by omega)) he.symm
  · intro r2 h0 h8
    obtain ⟨rN, rfl⟩ : ∃ n : Nat, r2 = (n : Int) := ⟨r2.toNat, (Int.toNat_of_nonneg h0).symm⟩
    have hrN : rN ≤ 8 := by exact_mod_cast h8
    exact fun he => hcol rN (List.mem_range.2 (by omega)) he.symm
  · intro dc dr h0c h2c h0r h2r
    obtain ⟨cN, rfl⟩ : ∃ n : Nat, dc = (n : Int) := ⟨dc.toNat, (Int.toNat_of_nonneg h0c).symm⟩
    obtain ⟨rN, rfl⟩ : ∃ n : Nat, dr = (n : Int) := ⟨dr.toNat, (Int.toNat_of_nonneg h0r).symm⟩
    have hcN : cN ≤ 2 := by exact_mod_cast h2c
    have hrN : rN ≤ 2 := by exact_mod_cast h2r
    exact fun he =>
      hbox cN (List.mem_range.2 (by omega)) rN (List.mem_range.2 (by omega)) he.symm

/-- Witness for C6 at the blank centre cell of the one-blank puzzle: the
only candidate is 9, and in particular the cell above the centre does not
hold it. -/
theorem candidates_subset_witness :
    find_candidates one_blank_board ⟨4, 4⟩ = [9] ∧ (1 ≤ (9 : Int) ∧ (9 : Int) ≤ 9) ∧
      cellAt one_blank_board (point_t.idx 4 3) ≠ 9 :=
  ⟨by decide,
    (candidates_subset_digits_and_exclusive one_blank_board ⟨4, 4⟩ (by decide) (by decide)
      (by decide) (by decide) (by decide) (by decide) 9 (by decide)).1,
    (candidates_subset_digits_and_exclusive one_blank_board ⟨4, 4⟩ (by decide) (by decide)
      (by decide) (by decide) (by decide) (by decide) 9 (by decide)).2.2.1 3 (by decide)
      (by decide)⟩

/-- C8: a complete board returned by solve_recursive agrees with the input
board at every cell the input had filled: the solver writes only to empty
cells. -/
theorem solve_preserves_givens (board : board_t) (start : Nat) (r : board_t)
    (hlen : board.length = 81) (hs : solve_recursive board start = some r)
    (hcomp : is_completed r = true) :
    ∀ k, k < 81 → board.getD k 0 ≠ 0 → r.getD k 0 = board.getD k 0 := by
  rcases solve_rec_fuel_post 82 board start r hlen hs with rfl | ⟨_, h2, _⟩
  · exact absurd hcomp (by decide)
  · exact h2

/-- Witness for C8: solving the one-blank puzzle keeps the first given. -/
theorem solve_preserves_givens_witness :
    solve_recursive one_blank_board 0 = some full_grid ∧
      full_grid.getD 0 0 = one_blank_board.getD 0 0 :=
  ⟨by decide,
    solve_preserves_givens one_blank_board 0 full_grid (by decide) (by decide) (by decide) 0
      (by decide) (by decide)⟩

/-- C9 counterexample: on the unsatisfiable puzzle, solve_recursive returns
the empty sentinel, and re-solving that sentinel board is an out-of-range
read (undefined behaviour), not the sentinel again: solve composed with
solve differs from solve on this input. -/
theorem solve_not_idempotent_on_sentinel :
    solve_recursive unsat_board 0 = some [] ∧ solve_recursive [] 0 = none :=
  ⟨by decide, by decide⟩

/-- C9 amended: whenever solve_recursive returns a complete board, feeding
that board back returns it unchanged, so solve is idempotent on inputs it
solves; in particular every complete board is returned unchanged.  (When
the result is the empty sentinel, re-solving it reads out of range instead
of reproducing the sentinel.) -/
theorem solve_idempotent_on_complete_results (board r : board_t)
    (hs : solve_recursive board 0 = some r) (hcomp : is_completed r = true) :
    solve_recursive r 0 = some r := by
  show solve_rec_fuel (81 + 1) r 0 = some r
  rw [solve_rec_fuel, if_pos hcomp]

/-- Witness for C9 amended: full_grid, the result of the one-blank puzzle,
is returned unchanged. -/
theorem solve_idempotent_witness :
    solve_recursive one_blank_board 0 = some full_grid ∧
      solve_recursive full_grid 0 = some full_grid :=
  ⟨by decide,
    solve_idempotent_on_complete_results one_blank_board full_grid (by decide) (by decide)⟩

end rda.sudoku
